import Mathlib

/-!
Shallow embedding of the gunrock graph storage engine core:
the CSR static graph representation (src/gunrock/graph/graph.hxx),
the dynamic (slab-hash) graph wrapper Dyn (dynamic_graph_unweighted.cuh part
of the same file), and the device prefix-scan primitive
(src/gunrock/algorithms/scan/scan.cuh).

Machine integers (vertex_t, edge_t) are modelled as Nat; weights as Int.
A C++ assert is modelled as the none branch of an Option-returning function.
Parts of the repository that are only declared or called from the sources in
scope (the mgpu scan backend, algo::search::binary::rightmost, the slab-hash
DynamicGraphBase operations, util::Array1D) are modelled from the spec and
carry a doc comment saying so.
-/

namespace Gunrock

/-- Scan mode enum from scan.cuh (enum scan_t: inclusive, exclusive). -/
inductive scan_t
  | inclusive
  | exclusive
deriving DecidableEq

/-- CUDA status codes as used by the sources: success, or a backend failure
(allocation failure / device fault). -/
inductive cudaError_t
  | cudaSuccess
  | cudaErrorBackendFailure
deriving DecidableEq

/-- Modelled from the spec: the mgpu exclusive scan called by the device scan
wrapper. Position i of the output holds op folded over the first i inputs,
starting from the accumulator (the identity at the top call). -/
def scanExclusive {α : Type} (op : α → α → α) (acc : α) : List α → List α
  | [] => []
  | x :: xs => acc :: scanExclusive op (op acc x) xs

/-- Modelled from the spec: the mgpu inclusive scan called by the device scan
wrapper. Position i of the output holds op folded over the first i+1 inputs. -/
def scanInclusive {α : Type} (op : α → α → α) (acc : α) : List α → List α
  | [] => []
  | x :: xs => (op acc x) :: scanInclusive op (op acc x) xs

/-- Modelled from the spec: the optional total reduction returned by the scan;
it is the last entry of the inclusive scan (the accumulator when the input is
empty). -/
def scan_reduction {α : Type} (op : α → α → α) (acc : α) (l : List α) : α :=
  (scanInclusive op acc l).getLastD acc

/-- Modelled from the spec: the mgpu context handed to the device scan; the two
flags record whether the backend can allocate scratch space and whether the
device operation faults. -/
structure mgpu_context_t where
  alloc_ok : Bool
  fault : Bool
deriving DecidableEq

/-- Embedding of gunrock::algo::scan::device::scan (scan.cuh lines 30-64).
The wrapper initializes retval to cudaSuccess, dispatches on the scan mode to
the mgpu backend, and returns retval; retval is never reassigned, so the
returned status does not depend on the backend outcome recorded in the
context. Result: (status, output sequence, total reduction). -/
def device_scan (scan_type : scan_t) (input : List Nat) (op : Nat → Nat → Nat)
    (ident : Nat) (context : mgpu_context_t) (sync : Bool) :
    cudaError_t × List Nat × Nat :=
  let retval := cudaError_t.cudaSuccess
  let output :=
    match scan_type with
    | scan_t.inclusive => scanInclusive op ident input
    | scan_t.exclusive => scanExclusive op ident input
  let reduction := scan_reduction op ident input
  (retval, output, reduction)

theorem length_scanExclusive {α : Type} (op : α → α → α) (acc : α) (l : List α) :
    (scanExclusive op acc l).length = l.length := by
  induction l generalizing acc with
  | nil => rfl
  | cons x xs ih => simp [scanExclusive, ih]

theorem length_scanInclusive {α : Type} (op : α → α → α) (acc : α) (l : List α) :
    (scanInclusive op acc l).length = l.length := by
  induction l generalizing acc with
  | nil => rfl
  | cons x xs ih => simp [scanInclusive, ih]

theorem getD_scanExclusive {α : Type} (op : α → α → α) (acc : α) (l : List α)
    (i : Nat) (d : α) (h : i < l.length) :
    (scanExclusive op acc l).getD i d = (l.take i).foldl op acc := by
  induction l generalizing acc i with
  | nil => simp at h
  | cons x xs ih =>
    cases i with
    | zero => simp [scanExclusive]
    | succ n =>
      simp only [scanExclusive, List.getD_cons_succ, List.take_succ_cons,
        List.foldl_cons]
      exact ih (op acc x) n (by simpa using h)

theorem getD_scanInclusive {α : Type} (op : α → α → α) (acc : α) (l : List α)
    (i : Nat) (d : α) (h : i < l.length) :
    (scanInclusive op acc l).getD i d = (l.take (i + 1)).foldl op acc := by
  induction l generalizing acc i with
  | nil => simp at h
  | cons x xs ih =>
    cases i with
    | zero => simp [scanInclusive]
    | succ n =>
      simp only [scanInclusive, List.getD_cons_succ, List.take_succ_cons,
        List.foldl_cons]
      exact ih (op acc x) n (by simpa using h)

theorem scan_reduction_eq_foldl {α : Type} (op : α → α → α) (acc : α)
    (l : List α) : scan_reduction op acc l = l.foldl op acc := by
  induction l generalizing acc with
  | nil => rfl
  | cons x xs ih =>
    simp only [scan_reduction, scanInclusive, List.foldl_cons] at *
    rw [List.getLastD_cons]
    exact ih (op acc x)

/-- Modelled from the spec: the core loop of algo::search::binary::rightmost
(the search routine called by graph_csr_t::get_source_vertex; its definition is
not among the sources in scope). Classic rightmost binary search on the window
[lo, hi): it returns the least index L in [lo, hi] such that every index at or
beyond L in the window has f exceeding the key; L - 1 is then the rightmost
index whose value does not exceed the key. -/
def bsearch_rmAux (f : Nat → Nat) (key : Nat) : Nat → Nat → Nat → Nat
  | 0, lo, _ => lo
  | fuel + 1, lo, hi =>
    if lo < hi then
      if f ((lo + hi) / 2) ≤ key then
        bsearch_rmAux f key fuel ((lo + hi) / 2 + 1) hi
      else bsearch_rmAux f key fuel lo ((lo + hi) / 2)
    else lo

/-- The loop entry: the window width hi - lo bounds the number of halving
steps, so it serves as structural fuel. -/
def bsearch_rm (f : Nat → Nat) (key : Nat) (lo hi : Nat) : Nat :=
  bsearch_rmAux f key (hi - lo) lo hi

/-- Modelled from the spec: algo::search::binary::rightmost(offsets, key, size)
returns the rightmost index i < size with offsets[i] <= key (binary search);
out-of-range reads are modelled with getD default 0, which the valid calls
never hit. -/
def rightmost (offsets : List Nat) (key : Nat) (size : Nat) : Nat :=
  bsearch_rm (fun i => offsets.getD i 0) key 0 size - 1

theorem bsearch_rmAux_window (f : Nat → Nat) (key : Nat) :
    ∀ (fuel lo hi : Nat), hi - lo ≤ fuel → lo ≤ hi →
      (∀ i j, i ≤ j → j < hi → f j ≤ key → f i ≤ key) →
      lo ≤ bsearch_rmAux f key fuel lo hi ∧
        bsearch_rmAux f key fuel lo hi ≤ hi ∧
        (∀ i, lo ≤ i → i < bsearch_rmAux f key fuel lo hi → f i ≤ key) ∧
        (∀ i, bsearch_rmAux f key fuel lo hi ≤ i → i < hi → key < f i) := by
  intro fuel
  induction fuel with
  | zero =>
    intro lo hi hn hle hdc
    have : lo = hi := by omega
    simp only [bsearch_rmAux]
    exact ⟨Nat.le_refl lo, by omega, fun i h1 h2 => by omega,
      fun i h1 h2 => by omega⟩
  | succ fuel ih =>
    intro lo hi hn hle hdc
    by_cases h : lo < hi
    · have hmid1 : lo ≤ (lo + hi) / 2 := by omega
      have hmid2 : (lo + hi) / 2 < hi := by omega
      by_cases hf : f ((lo + hi) / 2) ≤ key
      · simp only [bsearch_rmAux, if_pos h, if_pos hf]
        obtain ⟨r1, r2, r3, r4⟩ :=
          ih ((lo + hi) / 2 + 1) hi (by omega) (by omega) hdc
        refine ⟨by omega, r2, ?_, r4⟩
        intro i hi1 hi2
        by_cases hcase : (lo + hi) / 2 + 1 ≤ i
        · exact r3 i hcase hi2
        · exact hdc i ((lo + hi) / 2) (by omega) hmid2 hf
      · simp only [bsearch_rmAux, if_pos h, if_neg hf]
        obtain ⟨r1, r2, r3, r4⟩ :=
          ih lo ((lo + hi) / 2) (by omega) (by omega)
            (fun i j h1 h2 => hdc i j h1 (by omega))
        refine ⟨r1, by omega, r3, ?_⟩
        intro i hi1 hi2
        by_cases hcase : i < (lo + hi) / 2
        · exact r4 i hi1 hcase
        · by_contra hc
          exact hf (hdc ((lo + hi) / 2) i (by omega) hi2 (by omega))
    · simp only [bsearch_rmAux, if_neg h]
      have : lo = hi := by omega
      exact ⟨Nat.le_refl lo, by omega, fun i h1 h2 => by omega,
        fun i h1 h2 => by omega⟩

theorem bsearch_rm_window (f : Nat → Nat) (key : Nat) (lo hi : Nat)
    (hle : lo ≤ hi)
    (hdc : ∀ i j, i ≤ j → j < hi → f j ≤ key → f i ≤ key) :
    lo ≤ bsearch_rm f key lo hi ∧ bsearch_rm f key lo hi ≤ hi ∧
      (∀ i, lo ≤ i → i < bsearch_rm f key lo hi → f i ≤ key) ∧
      (∀ i, bsearch_rm f key lo hi ≤ i → i < hi → key < f i) :=
  bsearch_rmAux_window f key (hi - lo) lo hi (Nat.le_refl _) hle hdc

theorem rightmost_spec (offsets : List Nat) (key size : Nat)
    (hmono : ∀ i j, i ≤ j → j < size → offsets.getD i 0 ≤ offsets.getD j 0)
    (hpos : 0 < size) (hfirst : offsets.getD 0 0 ≤ key) :
    rightmost offsets key size < size ∧
      offsets.getD (rightmost offsets key size) 0 ≤ key ∧
      (∀ j, j < size → offsets.getD j 0 ≤ key → j ≤ rightmost offsets key size) := by
  obtain ⟨r1, r2, r3, r4⟩ :=
    bsearch_rm_window (fun i => offsets.getD i 0) key 0 size
      (Nat.zero_le size)
      (fun i j h1 h2 h3 => Nat.le_trans (hmono i j h1 h2) h3)
  set L := bsearch_rm (fun i => offsets.getD i 0) key 0 size with hL
  have hL1 : 1 ≤ L := by
    by_contra hc
    exact Nat.lt_irrefl key (Nat.lt_of_lt_of_le (r4 0 (by omega) hpos) hfirst)
  have hrm : rightmost offsets key size = L - 1 := rfl
  refine ⟨by omega, ?_, ?_⟩
  · rw [hrm]
    exact r3 (L - 1) (Nat.zero_le _) (by omega)
  · intro j hj hval
    rw [hrm]
    by_contra hc
    exact Nat.lt_irrefl key (Nat.lt_of_lt_of_le (r4 j (by omega) hj) hval)

theorem rightmost_mono (offsets : List Nat) (k1 k2 size : Nat)
    (hmono : ∀ i j, i ≤ j → j < size → offsets.getD i 0 ≤ offsets.getD j 0)
    (hpos : 0 < size) (hfirst : offsets.getD 0 0 ≤ k1) (hk : k1 ≤ k2) :
    rightmost offsets k1 size ≤ rightmost offsets k2 size := by
  obtain ⟨a1, a2, a3⟩ := rightmost_spec offsets k1 size hmono hpos hfirst
  obtain ⟨b1, b2, b3⟩ :=
    rightmost_spec offsets k2 size hmono hpos (Nat.le_trans hfirst hk)
  exact b3 (rightmost offsets k1 size) a1 (Nat.le_trans a2 hk)

/-- Embedding of graph_csr_t (graph.hxx lines 67-122) together with the
graph_base_t counts it inherits: number_of_vertices, number_of_edges, the CSR
row_offsets and column_indices arrays and the optional weights. -/
structure graph_csr_t where
  number_of_vertices : Nat
  number_of_edges : Nat
  row_offsets : List Nat
  column_indices : List Nat
  weights : List Int
deriving DecidableEq

/-- Embedding of graph_csr_t::get_neighbor_list_length (graph.hxx 91-95):
asserts v < number_of_vertices (the none branch models a failed assert) and
returns row_offsets[v+1] - row_offsets[v]. -/
def get_neighbor_list_length (g : graph_csr_t) (v : Nat) : Option Nat :=
  if v < g.number_of_vertices then
    some (g.row_offsets.getD (v + 1) 0 - g.row_offsets.getD v 0)
  else none

/-- Embedding of graph_csr_t::get_source_vertex (graph.hxx 97-101): asserts
e < number_of_edges (the none branch models a failed assert) and returns
algo::search::binary::rightmost(row_offsets, e, number_of_vertices). -/
def get_source_vertex (g : graph_csr_t) (e : Nat) : Option Nat :=
  if e < g.number_of_edges then
    some (rightmost g.row_offsets e g.number_of_vertices)
  else none

/-- Modelled from the spec: the body of graph_csr_t::get_destination_vertex
(graph.hxx 103-106) is an empty stub in the source; the spec defines it as a
direct O(1) index into column_indices at position e. -/
def get_destination_vertex (g : graph_csr_t) (e : Nat) : Nat :=
  g.column_indices.getD e 0

/-- Modelled from the spec: the body of graph_csr_t::get_edge (graph.hxx
112-115) is an empty stub in the source; the spec defines it as a linear scan
of the neighbor range of the source vertex for the destination, returning a
sentinel (here none) when the pair is not adjacent. -/
def get_edge (g : graph_csr_t) (source destination : Nat) : Option Nat :=
  (List.range' (g.row_offsets.getD source 0)
      (g.row_offsets.getD (source + 1) 0 - g.row_offsets.getD source 0)).find?
    (fun e => g.column_indices.getD e 0 = destination)

/-- The CSR invariants of the data model: offsets array of length V+1 starting
at 0, ending at the edge count, non-decreasing; column_indices of length E. -/
def csrWF (g : graph_csr_t) : Prop :=
  g.row_offsets.length = g.number_of_vertices + 1 ∧
  g.column_indices.length = g.number_of_edges ∧
  g.row_offsets.getD 0 0 = 0 ∧
  g.row_offsets.getD g.number_of_vertices 0 = g.number_of_edges ∧
  List.Pairwise (· ≤ ·) g.row_offsets

instance (g : graph_csr_t) : Decidable (csrWF g) := by
  unfold csrWF
  infer_instance

/-- Adjacency of a pair in a CSR graph: some edge slot of the source's
neighbor range holds the destination. -/
def csr_adjacent (g : graph_csr_t) (s d : Nat) : Prop :=
  ∃ e < g.row_offsets.getD (s + 1) 0, g.row_offsets.getD s 0 ≤ e ∧
    g.column_indices.getD e 0 = d

instance (g : graph_csr_t) (s d : Nat) : Decidable (csr_adjacent g s d) := by
  unfold csr_adjacent
  infer_instance

theorem pairwise_getD_mono (l : List Nat) (hp : List.Pairwise (· ≤ ·) l)
    (i j : Nat) (hij : i ≤ j) (hj : j < l.length) : l.getD i 0 ≤ l.getD j 0 := by
  rcases Nat.eq_or_lt_of_le hij with heq | hlt
  · rw [heq]
  · rw [List.getD_eq_getElem l 0 (by omega), List.getD_eq_getElem l 0 hj]
    exact List.pairwise_iff_get.mp hp ⟨i, by omega⟩ ⟨j, hj⟩ hlt

/-- The example CSR graph of the spec: row_offsets [0,2,3,5] (3 vertices),
column_indices [1,2,0,1,3] (5 edges). -/
def gEx : graph_csr_t :=
  { number_of_vertices := 3
    number_of_edges := 5
    row_offsets := [0, 2, 3, 5]
    column_indices := [1, 2, 0, 1, 3]
    weights := [] }

/-- Memory residency enum (util::Location): host or device. -/
inductive Location
  | HOST
  | DEVICE
deriving DecidableEq

/-- Modelled from the spec: util::Array1D, a typed buffer handle that can hold
data at host and at device residency. The sources in scope only call its
Move, Release and GetPointer operations. -/
structure Array1D (α : Type) where
  host : Option (List α)
  device : Option (List α)
deriving DecidableEq

/-- Modelled from the spec: Move(source, target) stages an owned copy of the
buffer contents from the source residency to the target residency, leaving the
source side untouched. -/
def Array1D.Move {α : Type} (a : Array1D α) (src tgt : Location) : Array1D α :=
  match src, tgt with
  | Location.HOST, Location.DEVICE => { a with device := a.host }
  | Location.DEVICE, Location.HOST => { a with host := a.device }
  | _, _ => a

/-- Modelled from the spec: Release(residency) frees the copy held at the given
residency. -/
def Array1D.Release {α : Type} (a : Array1D α) (loc : Location) : Array1D α :=
  match loc with
  | Location.HOST => { a with host := none }
  | Location.DEVICE => { a with device := none }

/-- Modelled from the spec: GetPointer(residency) reads the contents held at
the given residency (empty when nothing is resident there). -/
def Array1D.GetPointer {α : Type} (a : Array1D α) (loc : Location) : List α :=
  match loc with
  | Location.HOST => a.host.getD []
  | Location.DEVICE => a.device.getD []

/-- Embedding of the dynamic slab-hash graph state (DynamicGraphBase fields
used by the Dyn wrapper): the per-vertex adjacency store flattened to a
duplicate-free list of (source, destination) pairs whose membership is the
adjacency, plus the stored node and edge counts and the directedness flag. -/
structure DynGraph where
  edgeSet : List (Nat × Nat)
  nodes : Nat
  edges : Nat
  is_directed : Bool
deriving DecidableEq

/-- Modelled from the spec: inserting one pair into a vertex slab; a pair that
already exists is a no-op (the store is a set, not a multiset). -/
def insertPair (s : List (Nat × Nat)) (p : Nat × Nat) : List (Nat × Nat) :=
  if p ∈ s then s else p :: s

/-- Modelled from the spec: deleting one pair from a vertex slab; an absent
pair is silently ignored. -/
def deletePair (s : List (Nat × Nat)) (p : Nat × Nat) : List (Nat × Nat) :=
  s.filter (fun q => q ≠ p)

/-- Modelled from the spec: a batch whose directed flag is false is logically
doubled, each pair appearing in both directions. -/
def batchExpand (B : List (Nat × Nat)) (directed : Bool) : List (Nat × Nat) :=
  if directed then B else B ++ B.map (fun p => (p.2, p.1))

/-- Modelled from the spec: the slab-hash batched deletion
(dynamicGraph.DeleteEdgesBatch) applied to the flattened adjacency store;
the undirected flag (the wrapper passes the negation of is_directed) makes the
batch delete both directions of each pair. -/
def deleteBatchPairs (s : List (Nat × Nat)) (B : List (Nat × Nat))
    (undirected : Bool) : List (Nat × Nat) :=
  (batchExpand B (!undirected)).foldl deletePair s

/-- Embedding of Dyn::InsertEdgesBatch (dynamic_graph_unweighted.cuh part of
graph.hxx, lines 284-289): its body is a bare return-cudaSuccess statement —
it reads none of its arguments and leaves the graph exactly as it was. -/
def Dyn.InsertEdgesBatch (g : DynGraph) (edges : Array1D (Nat × Nat))
    (batchSize : Nat) (batch_directed : Bool) (target : Location) :
    DynGraph × cudaError_t :=
  (g, cudaError_t.cudaSuccess)

/-- Embedding of Dyn::DeleteEdgesBatch (dynamic_graph_unweighted.cuh part of
graph.hxx, lines 298-313): when the buffer is not device resident it is first
moved host-to-device, the slab-hash deletion runs on the device pointer with
the negation of is_directed, and the staged device copy is released before
returning cudaSuccess. -/
def Dyn.DeleteEdgesBatch (g : DynGraph) (edges : Array1D (Nat × Nat))
    (batchSize : Nat) (target : Location) :
    DynGraph × Array1D (Nat × Nat) × cudaError_t :=
  let edges1 :=
    if target ≠ Location.DEVICE then edges.Move Location.HOST Location.DEVICE
    else edges
  let g1 := { g with
    edgeSet := deleteBatchPairs g.edgeSet
      ((edges1.GetPointer Location.DEVICE).take batchSize) (!g.is_directed) }
  let edges2 :=
    if target ≠ Location.DEVICE then edges1.Release Location.DEVICE
    else edges1
  (g1, edges2, cudaError_t.cudaSuccess)

/-- Embedding of the Gunrock CSR container consumed and produced by the Dyn
conversions (fields read by FromCsr and ToCsr in the source: nodes, edges,
row_offsets, column_indices, edge_values, directed). -/
structure csr_t where
  nodes : Nat
  edges : Nat
  row_offsets : List Nat
  column_indices : List Nat
  edge_values : List Int
  directed : Bool
deriving DecidableEq

/-- The CSR neighbor range of vertex v: the column_indices slice between
row_offsets[v] and row_offsets[v+1]. -/
def csrNeighborsRange (c : csr_t) (v : Nat) : List Nat :=
  (c.column_indices.take (c.row_offsets.getD (v + 1) 0)).drop
    (c.row_offsets.getD v 0)

/-- All (source, destination) pairs of a CSR graph, vertex by vertex. -/
def csrPairs (c : csr_t) : List (Nat × Nat) :=
  (List.range c.nodes).flatMap
    (fun v => (csrNeighborsRange c v).map (fun n => (v, n)))

/-- Embedding of Dyn::FromCsr (graph.hxx dynamic part, lines 323-340). The
slab-hash bulk build (dynamicGraph.BulkBuildFromCsr, not among the sources in
scope) is modelled from the spec: Allocate() gives fresh empty slabs and every
vertex's CSR neighbor range is bulk-inserted into its slab. The count
assignments nodes = csr.nodes and edges = csr.edges are taken verbatim from
the source, and the directedness flag is taken from the CSR. -/
def Dyn.FromCsr (g : DynGraph) (c : csr_t) (target : Location) :
    DynGraph × cudaError_t :=
  ({ g with
      edgeSet := (csrPairs c).foldl insertPair []
      nodes := c.nodes
      edges := c.edges
      is_directed := c.directed },
    cudaError_t.cudaSuccess)

/-- The neighbor list of one vertex read out of the dynamic adjacency store. -/
def dynNeighbors (g : DynGraph) (v : Nat) : List Nat :=
  g.edgeSet.filterMap (fun p => if p.1 = v then some p.2 else none)

/-- Embedding of Dyn::ToCsr (graph.hxx dynamic part, lines 349-355). The
slab-hash export (dynamicGraph.ToCsr, not among the sources in scope) is
modelled from the spec: per-vertex live neighbor counts, the Scan primitive
over the counts to produce row_offsets, and a scatter of each vertex's
neighbors into column_indices. -/
def Dyn.ToCsr (g : DynGraph) : csr_t :=
  let lists := (List.range g.nodes).map (dynNeighbors g)
  let counts := lists.map List.length
  { nodes := g.nodes
    edges := scan_reduction Nat.add 0 counts
    row_offsets := scanExclusive Nat.add 0 counts ++ [scan_reduction Nat.add 0 counts]
    column_indices := lists.flatten
    edge_values := []
    directed := g.is_directed }

theorem mem_insertPair (s : List (Nat × Nat)) (p q : Nat × Nat) :
    q ∈ insertPair s p ↔ q = p ∨ q ∈ s := by
  unfold insertPair
  by_cases h : p ∈ s
  · simp only [if_pos h]
    constructor
    · exact Or.inr
    · rintro (rfl | hq)
      · exact h
      · exact hq
  · simp [if_neg h]

theorem mem_foldl_insertPair (L : List (Nat × Nat)) (s : List (Nat × Nat))
    (q : Nat × Nat) : q ∈ L.foldl insertPair s ↔ q ∈ s ∨ q ∈ L := by
  induction L generalizing s with
  | nil => simp
  | cons x xs ih =>
    rw [List.foldl_cons, ih, mem_insertPair]
    simp only [List.mem_cons]
    tauto

theorem mem_deletePair (s : List (Nat × Nat)) (p q : Nat × Nat) :
    q ∈ deletePair s p ↔ q ∈ s ∧ q ≠ p := by
  simp [deletePair, List.mem_filter]

theorem mem_foldl_deletePair (L : List (Nat × Nat)) (s : List (Nat × Nat))
    (q : Nat × Nat) : q ∈ L.foldl deletePair s ↔ q ∈ s ∧ q ∉ L := by
  induction L generalizing s with
  | nil => simp
  | cons x xs ih =>
    rw [List.foldl_cons, ih, mem_deletePair]
    simp only [List.mem_cons]
    tauto

theorem foldl_deletePair_eq_self (L : List (Nat × Nat)) (s : List (Nat × Nat))
    (h : ∀ p ∈ L, p ∉ s) : L.foldl deletePair s = s := by
  induction L with
  | nil => rfl
  | cons x xs ih =>
    rw [List.foldl_cons]
    have hx : deletePair s x = s := by
      unfold deletePair
      rw [List.filter_eq_self]
      intro a ha
      have : a ≠ x := by
        intro heq
        exact h x (List.mem_cons_self x xs) (heq ▸ ha)
      simpa using this
    rw [hx]
    exact ih (fun p hp => h p (List.mem_cons_of_mem x hp))

theorem mem_dynNeighbors (g : DynGraph) (v x : Nat) :
    x ∈ dynNeighbors g v ↔ (v, x) ∈ g.edgeSet := by
  unfold dynNeighbors
  rw [List.mem_filterMap]
  constructor
  · rintro ⟨⟨a, b⟩, hmem, hab⟩
    by_cases h : a = v
    · rw [if_pos h] at hab
      have hb := Option.some_inj.mp hab
      subst hb
      subst h
      exact hmem
    · rw [if_neg h] at hab
      simp at hab
  · intro h
    exact ⟨(v, x), h, by simp⟩

theorem mem_csrPairs (c : csr_t) (v x : Nat) :
    (v, x) ∈ csrPairs c ↔ v < c.nodes ∧ x ∈ csrNeighborsRange c v := by
  unfold csrPairs
  rw [List.mem_flatMap]
  constructor
  · rintro ⟨a, ha, hmem⟩
    rw [List.mem_map] at hmem
    obtain ⟨n, hn, heq⟩ := hmem
    obtain ⟨rfl, rfl⟩ : a = v ∧ n = x := by
      constructor <;> (cases heq; rfl)
    exact ⟨List.mem_range.mp ha, hn⟩
  · rintro ⟨hv, hx⟩
    exact ⟨v, List.mem_range.mpr hv, List.mem_map.mpr ⟨x, hx, rfl⟩⟩

theorem foldl_add_eq_sum (l : List Nat) (a : Nat) :
    l.foldl Nat.add a = a + l.sum := by
  induction l generalizing a with
  | nil => simp
  | cons x xs ih =>
    rw [List.foldl_cons, ih]
    simp [Nat.add_def]
    omega

/-- The row_offsets array produced by Dyn::ToCsr reads, at every index up to
the node count, the sum of the neighbor counts of the earlier vertices. -/
theorem toCsr_getD_row_offsets (g : DynGraph) (i : Nat) (hi : i ≤ g.nodes) :
    (Dyn.ToCsr g).row_offsets.getD i 0 =
      ((((List.range g.nodes).map (dynNeighbors g)).map List.length).take i).sum := by
  unfold Dyn.ToCsr
  simp only
  set lists := (List.range g.nodes).map (dynNeighbors g) with hlists
  set counts := lists.map List.length with hcounts
  have hclen : counts.length = g.nodes := by simp [hcounts, hlists]
  have hslen : (scanExclusive Nat.add 0 counts).length = counts.length :=
    length_scanExclusive _ _ _
  rcases Nat.lt_or_ge i counts.length with hlt | hge
  · rw [List.getD_append _ _ _ _ (by omega)]
    rw [getD_scanExclusive Nat.add 0 counts i 0 hlt, foldl_add_eq_sum]
    omega
  · have : i = counts.length := by omega
    subst this
    rw [List.getD_append_right _ _ _ _ (by omega)]
    simp only [hslen, Nat.sub_self, List.getD_cons_zero]
    rw [scan_reduction_eq_foldl, foldl_add_eq_sum, List.take_length]
    omega

/-- Reading vertex v's neighbor range out of the CSR exported by Dyn::ToCsr
gives back exactly that vertex's neighbor list in the dynamic store. -/
theorem toCsr_neighbors (g : DynGraph) (v : Nat) (hv : v < g.nodes) :
    csrNeighborsRange (Dyn.ToCsr g) v = dynNeighbors g v := by
  unfold csrNeighborsRange
  rw [toCsr_getD_row_offsets g v (by omega),
    toCsr_getD_row_offsets g (v + 1) (by omega)]
  have hcol : (Dyn.ToCsr g).column_indices =
      ((List.range g.nodes).map (dynNeighbors g)).flatten := rfl
  rw [hcol]
  have h := List.drop_take_succ_flatten_eq_getElem
    ((List.range g.nodes).map (dynNeighbors g)) v (by simpa using hv)
  simp only [List.getElem_map, List.getElem_range] at h
  exact h

theorem csrWF_getD_mono (g : graph_csr_t) (hwf : csrWF g) (i j : Nat)
    (hij : i ≤ j) (hj : j < g.number_of_vertices) :
    g.row_offsets.getD i 0 ≤ g.row_offsets.getD j 0 := by
  have hlen := hwf.1
  exact pairwise_getD_mono _ hwf.2.2.2.2 i j hij (by omega)

theorem csrWF_vertices_pos (g : graph_csr_t) (hwf : csrWF g)
    (hpos : 0 < g.number_of_edges) : 0 < g.number_of_vertices := by
  by_contra hc
  have hv0 : g.number_of_vertices = 0 := by omega
  have h0 := hwf.2.2.1
  have hV := hwf.2.2.2.1
  rw [hv0] at hV
  omega

/-- C1: for every CSR graph and every vertex v with v < number_of_vertices,
get_neighbor_list_length returns row_offsets[v+1] - row_offsets[v]; when the
assert-checked precondition fails the assert branch (modelled as none) is
taken instead. -/
theorem neighbor_list_length_spec (g : graph_csr_t) (v : Nat) :
    (v < g.number_of_vertices →
      get_neighbor_list_length g v =
        some (g.row_offsets.getD (v + 1) 0 - g.row_offsets.getD v 0)) ∧
    (¬ v < g.number_of_vertices → get_neighbor_list_length g v = none) := by
  constructor <;> intro h <;> simp [get_neighbor_list_length, h]

/-- Witness for C1 on the example graph: vertex 0 has 2 neighbors, and a
vertex id at the vertex count trips the assert. -/
theorem neighbor_list_length_spec_witness :
    get_neighbor_list_length gEx 0 = some 2 ∧
    get_neighbor_list_length gEx 3 = none := by
  constructor
  · exact ((neighbor_list_length_spec gEx 0).1 (by decide)).trans (by decide)
  · exact (neighbor_list_length_spec gEx 3).2 (by decide)

/-- C2: under the assert-checked bound e < number_of_edges,
get_source_vertex returns the rightmost (greatest) vertex index i with
row_offsets[i] <= e; the result is non-decreasing in e; on row_offsets
[0,2,3,5] it returns 0,0,1,2,2 for e = 0..4; and a failed assert (e at or
beyond the edge count) takes the none branch. -/
theorem source_vertex_spec :
    (∀ (g : graph_csr_t) (e : Nat), csrWF g → e < g.number_of_edges →
      ∃ i, get_source_vertex g e = some i ∧ i < g.number_of_vertices ∧
        g.row_offsets.getD i 0 ≤ e ∧
        (∀ j, j < g.number_of_vertices → g.row_offsets.getD j 0 ≤ e → j ≤ i)) ∧
    (∀ (g : graph_csr_t) (e1 e2 : Nat), csrWF g → e1 ≤ e2 →
      e2 < g.number_of_edges →
      rightmost g.row_offsets e1 g.number_of_vertices ≤
        rightmost g.row_offsets e2 g.number_of_vertices) ∧
    (∀ (g : graph_csr_t) (e : Nat), ¬ e < g.number_of_edges →
      get_source_vertex g e = none) ∧
    (get_source_vertex gEx 0 = some 0 ∧ get_source_vertex gEx 1 = some 0 ∧
      get_source_vertex gEx 2 = some 1 ∧ get_source_vertex gEx 3 = some 2 ∧
      get_source_vertex gEx 4 = some 2) := by
  refine ⟨?_, ?_, ?_, by decide, by decide, by decide, by decide, by decide⟩
  · intro g e hwf he
    have hVpos := csrWF_vertices_pos g hwf (by omega)
    have h0 := hwf.2.2.1
    obtain ⟨r1, r2, r3⟩ :=
      rightmost_spec g.row_offsets e g.number_of_vertices
        (csrWF_getD_mono g hwf) hVpos (by omega)
    exact ⟨rightmost g.row_offsets e g.number_of_vertices,
      by simp [get_source_vertex, he], r1, r2, r3⟩
  · intro g e1 e2 hwf h12 he2
    have hVpos := csrWF_vertices_pos g hwf (by omega)
    have h0 := hwf.2.2.1
    exact rightmost_mono g.row_offsets e1 e2 g.number_of_vertices
      (csrWF_getD_mono g hwf) hVpos (by omega) h12
  · intro g e h
    simp [get_source_vertex, h]

/-- Witness for C2 on the example graph: edge 2's source is the rightmost
index with offset at most 2, namely vertex 1. -/
theorem source_vertex_spec_witness :
    csrWF gEx ∧ (2 : Nat) < gEx.number_of_edges ∧
    (∃ i, get_source_vertex gEx 2 = some i ∧ i < gEx.number_of_vertices ∧
      gEx.row_offsets.getD i 0 ≤ 2 ∧
      (∀ j, j < gEx.number_of_vertices → gEx.row_offsets.getD j 0 ≤ 2 → j ≤ i)) :=
  ⟨by decide, by decide, source_vertex_spec.1 gEx 2 (by decide) (by decide)⟩

/-- C9: for every CSR graph and edge id e with e < number_of_edges,
get_destination_vertex returns the entry of column_indices at position e
(a plain O(1) index; position e is in range by the CSR invariants). -/
theorem destination_vertex_spec (g : graph_csr_t) (e : Nat) (hwf : csrWF g)
    (he : e < g.number_of_edges) :
    ∃ h : e < g.column_indices.length,
      get_destination_vertex g e = g.column_indices.get ⟨e, h⟩ := by
  have hlen : e < g.column_indices.length := by
    have := hwf.2.1
    omega
  refine ⟨hlen, ?_⟩
  unfold get_destination_vertex
  rw [List.getD_eq_getElem g.column_indices 0 hlen]
  rfl

/-- Witness for C9 on the example graph: edge 1 goes to vertex 2. -/
theorem destination_vertex_spec_witness :
    csrWF gEx ∧ (1 : Nat) < gEx.number_of_edges ∧
    (∃ h : 1 < gEx.column_indices.length,
      get_destination_vertex gEx 1 = gEx.column_indices.get ⟨1, h⟩) :=
  ⟨by decide, by decide, destination_vertex_spec gEx 1 (by decide) (by decide)⟩

/-- C7: get_edge scans the source vertex's neighbor range; when the pair is
adjacent it returns the edge id found there (an edge slot of the range holding
the destination), and when the pair is not adjacent it returns the sentinel
none, a reportable result rather than an assertion failure. -/
theorem get_edge_spec (g : graph_csr_t) (source destination : Nat)
    (hwf : csrWF g) (hs : source < g.number_of_vertices) :
    (csr_adjacent g source destination →
      ∃ e, get_edge g source destination = some e ∧
        g.row_offsets.getD source 0 ≤ e ∧
        e < g.row_offsets.getD (source + 1) 0 ∧
        g.column_indices.getD e 0 = destination) ∧
    (¬ csr_adjacent g source destination →
      get_edge g source destination = none) := by
  have hmono : g.row_offsets.getD source 0 ≤ g.row_offsets.getD (source + 1) 0 := by
    have hlen := hwf.1
    exact pairwise_getD_mono _ hwf.2.2.2.2 source (source + 1) (by omega)
      (by omega)
  have hrange : ∀ e : Nat,
      e ∈ List.range' (g.row_offsets.getD source 0)
        (g.row_offsets.getD (source + 1) 0 - g.row_offsets.getD source 0) ↔
      g.row_offsets.getD source 0 ≤ e ∧ e < g.row_offsets.getD (source + 1) 0 := by
    intro e
    rw [List.mem_range'_1]
    omega
  constructor
  · rintro ⟨e0, he2, he1, he3⟩
    rcases hfind : get_edge g source destination with _ | e
    · exfalso
      unfold get_edge at hfind
      rw [List.find?_eq_none] at hfind
      exact hfind e0 ((hrange e0).mpr ⟨he1, he2⟩) (by simpa using he3)
    · have hmem := List.mem_of_find?_eq_some hfind
      have hp := List.find?_some hfind
      rw [hrange e] at hmem
      exact ⟨e, rfl, hmem.1, hmem.2, by simpa using hp⟩
  · intro hnadj
    unfold get_edge
    rw [List.find?_eq_none]
    intro e hmem hp
    rw [hrange e] at hmem
    exact hnadj ⟨e, hmem.2, hmem.1, by simpa using hp⟩

/-- Witness for C7 on the example graph: vertex 0 is adjacent to vertex 2
(the scan finds an edge slot of vertex 0's range holding 2), and vertex 0 is
not adjacent to vertex 3, which yields the sentinel. -/
theorem get_edge_spec_witness :
    csrWF gEx ∧ (0 : Nat) < gEx.number_of_vertices ∧
    (∃ e, get_edge gEx 0 2 = some e ∧ gEx.row_offsets.getD 0 0 ≤ e ∧
      e < gEx.row_offsets.getD 1 0 ∧ gEx.column_indices.getD e 0 = 2) ∧
    get_edge gEx 0 3 = none := by
  refine ⟨by decide, by decide, ?_, ?_⟩
  · exact (get_edge_spec gEx 0 2 (by decide) (by decide)).1 (by decide)
  · exact (get_edge_spec gEx 0 3 (by decide) (by decide)).2 (by decide)

/-- C3: for every input sequence and combining operator with an identity
element, the exclusive scan holds at position i the operator folded over
input[0..i-1] (the identity at i = 0, since the fold of an empty prefix is the
accumulator), the inclusive scan holds the fold over input[0..i], and the
returned reduction is the fold over the whole input; on input [3,1,2,4] with
addition the scans are [0,3,4,6] and [3,4,6,10] and the reduction is 10.
These are the sequences the device scan wrapper dispatches to the backend
for. -/
theorem scan_spec (α : Type) (op : α → α → α) (ident : α) (l : List α)
    (i : Nat) (d : α) :
    (i < l.length →
      (scanExclusive op ident l).getD i d = (l.take i).foldl op ident) ∧
    (i < l.length →
      (scanInclusive op ident l).getD i d = (l.take (i + 1)).foldl op ident) ∧
    scan_reduction op ident l = l.foldl op ident ∧
    scanExclusive Nat.add 0 [3, 1, 2, 4] = [0, 3, 4, 6] ∧
    scanInclusive Nat.add 0 [3, 1, 2, 4] = [3, 4, 6, 10] ∧
    scan_reduction Nat.add 0 [3, 1, 2, 4] = 10 :=
  ⟨getD_scanExclusive op ident l i d, getD_scanInclusive op ident l i d,
    scan_reduction_eq_foldl op ident l, by decide, by decide, by decide⟩

/-- Witness for C3 at input [3,1,2,4], position 2, with addition: the
exclusive entry is 3 + 1 = 4 and the inclusive entry is 3 + 1 + 2 = 6. -/
theorem scan_spec_witness :
    (2 : Nat) < ([3, 1, 2, 4] : List Nat).length ∧
    (scanExclusive Nat.add 0 [3, 1, 2, 4]).getD 2 0 =
      (([3, 1, 2, 4] : List Nat).take 2).foldl Nat.add 0 ∧
    (scanInclusive Nat.add 0 [3, 1, 2, 4]).getD 2 0 =
      (([3, 1, 2, 4] : List Nat).take 3).foldl Nat.add 0 :=
  ⟨by decide, (scan_spec Nat Nat.add 0 [3, 1, 2, 4] 2 0).1 (by decide),
    (scan_spec Nat Nat.add 0 [3, 1, 2, 4] 2 0).2.1 (by decide)⟩

/-- C6 (divergence evidence): the device scan wrapper initializes its status
to cudaSuccess and never reassigns it, so it returns the success status for
every input and every backend context — including a context recording a
scratch-allocation failure or a device fault, where the claim requires a
non-success status. -/
theorem scan_status_always_success :
    (∀ (st : scan_t) (input : List Nat) (op : Nat → Nat → Nat) (ident : Nat)
      (ctx : mgpu_context_t) (sync : Bool),
      (device_scan st input op ident ctx sync).1 = cudaError_t.cudaSuccess) ∧
    (device_scan scan_t.exclusive [3, 1, 2, 4] Nat.add 0
        { alloc_ok := false, fault := true } false).1 = cudaError_t.cudaSuccess :=
  ⟨fun st input op ident ctx sync => rfl, rfl⟩

/-- C5: when the edges buffer of DeleteEdgesBatch is not device resident, the
operation stages a device copy of the host contents, runs the batched deletion
on that staged copy, and releases it before returning; the returned buffer is
exactly the caller's buffer (host contents untouched, device side empty as it
was). -/
theorem delete_edges_batch_staging (g : DynGraph)
    (edges : Array1D (Nat × Nat)) (batchSize : Nat) (target : Location)
    (ht : target ≠ Location.DEVICE) (hd : edges.device = none) :
    (Dyn.DeleteEdgesBatch g edges batchSize target).2.1 = edges ∧
    (Dyn.DeleteEdgesBatch g edges batchSize target).1 =
      { g with
        edgeSet := deleteBatchPairs g.edgeSet
          ((edges.host.getD []).take batchSize) (!g.is_directed) } ∧
    (Dyn.DeleteEdgesBatch g edges batchSize target).2.2 =
      cudaError_t.cudaSuccess := by
  cases target with
  | DEVICE => exact absurd rfl ht
  | HOST =>
    obtain ⟨h, d⟩ := edges
    have hd2 : d = none := hd
    subst hd2
    exact ⟨rfl, rfl, rfl⟩

/-- Witness for C5: a host-resident batch holding the single pair (0,1) is
deleted from a one-edge graph; the buffer comes back unchanged and the edge is
gone. -/
theorem delete_edges_batch_staging_witness :
    (Location.HOST ≠ Location.DEVICE) ∧
    (Dyn.DeleteEdgesBatch
        { edgeSet := [(0, 1)], nodes := 2, edges := 1, is_directed := true }
        { host := some [(0, 1)], device := none } 1 Location.HOST).2.1 =
      { host := some [(0, 1)], device := none } ∧
    (Dyn.DeleteEdgesBatch
        { edgeSet := [(0, 1)], nodes := 2, edges := 1, is_directed := true }
        { host := some [(0, 1)], device := none } 1 Location.HOST).1 =
      { edgeSet := [], nodes := 2, edges := 1, is_directed := true } := by
  have h := delete_edges_batch_staging
    { edgeSet := [(0, 1)], nodes := 2, edges := 1, is_directed := true }
    { host := some [(0, 1)], device := none } 1 Location.HOST
    (by decide) (by decide)
  exact ⟨by decide, h.1, h.2.1.trans (by decide)⟩

/-- C10: Dyn::FromCsr stores node and edge counts copied verbatim from the
source CSR; in particular, for a CSR that lists a duplicate edge the stored
edge count stays 2 while the set-based store collapses to a single pair. -/
theorem from_csr_counts :
    (∀ (g0 : DynGraph) (c : csr_t) (target : Location),
      ((Dyn.FromCsr g0 c target).1).nodes = c.nodes ∧
      ((Dyn.FromCsr g0 c target).1).edges = c.edges) ∧
    (((Dyn.FromCsr { edgeSet := [], nodes := 0, edges := 0, is_directed := true }
        { nodes := 1, edges := 2, row_offsets := [0, 2],
          column_indices := [0, 0], edge_values := [], directed := true }
        Location.HOST).1).edges = 2 ∧
      ((Dyn.FromCsr { edgeSet := [], nodes := 0, edges := 0, is_directed := true }
        { nodes := 1, edges := 2, row_offsets := [0, 2],
          column_indices := [0, 0], edge_values := [], directed := true }
        Location.HOST).1).edgeSet.length = 1) :=
  ⟨fun g0 c target => ⟨rfl, rfl⟩, by decide, by decide⟩

theorem deleteBatchPairs_idem (s B : List (Nat × Nat)) (u : Bool) :
    deleteBatchPairs (deleteBatchPairs s B u) B u = deleteBatchPairs s B u := by
  unfold deleteBatchPairs
  exact foldl_deletePair_eq_self _ _
    (fun p hp hmem => ((mem_foldl_deletePair _ _ p).mp hmem).2 hp)

/-- C8: applying InsertEdgesBatch with the same batch twice yields the same
adjacency as applying it once (the source body is a bare return-success stub,
so both applications leave the adjacency exactly as it was); likewise for
DeleteEdgesBatch, re-submitting the buffer the first call handed back; and
inserting a pair that already exists is a no-op for that pair — the pair is
still present afterwards and the call reports success, not an error. -/
theorem insert_delete_idempotent :
    (∀ (g : DynGraph) (edges : Array1D (Nat × Nat)) (n : Nat) (d : Bool)
      (target : Location),
      ((Dyn.InsertEdgesBatch (Dyn.InsertEdgesBatch g edges n d target).1
          edges n d target).1).edgeSet =
        ((Dyn.InsertEdgesBatch g edges n d target).1).edgeSet) ∧
    (∀ (g : DynGraph) (edges : Array1D (Nat × Nat)) (n : Nat)
      (target : Location),
      ((Dyn.DeleteEdgesBatch (Dyn.DeleteEdgesBatch g edges n target).1
          (Dyn.DeleteEdgesBatch g edges n target).2.1 n target).1).edgeSet =
        ((Dyn.DeleteEdgesBatch g edges n target).1).edgeSet) ∧
    (∀ (g : DynGraph) (edges : Array1D (Nat × Nat)) (n : Nat) (d : Bool)
      (target : Location) (p : Nat × Nat), p ∈ g.edgeSet →
      p ∈ ((Dyn.InsertEdgesBatch g edges n d target).1).edgeSet ∧
        (Dyn.InsertEdgesBatch g edges n d target).2 =
          cudaError_t.cudaSuccess) := by
  refine ⟨?_, ?_, ?_⟩
  · intro g edges n d target
    rfl
  · intro g edges n target
    cases target with
    | HOST =>
      exact deleteBatchPairs_idem g.edgeSet ((edges.host.getD []).take n)
        (!g.is_directed)
    | DEVICE =>
      exact deleteBatchPairs_idem g.edgeSet ((edges.device.getD []).take n)
        (!g.is_directed)
  · intro g edges n d target p hp
    exact ⟨hp, rfl⟩

/-- Witness for C8: the pair (0,1), already present in a one-edge graph, is
still present after submitting an insert batch containing it, and the call
reports success. -/
theorem insert_delete_idempotent_witness :
    ((0, 1) : Nat × Nat) ∈
      ({ edgeSet := [(0, 1)], nodes := 2, edges := 1, is_directed := true } :
        DynGraph).edgeSet ∧
    ((0, 1) : Nat × Nat) ∈
      ((Dyn.InsertEdgesBatch
          { edgeSet := [(0, 1)], nodes := 2, edges := 1, is_directed := true }
          { host := some [(0, 1)], device := none } 1 true
          Location.HOST).1).edgeSet ∧
    (Dyn.InsertEdgesBatch
        { edgeSet := [(0, 1)], nodes := 2, edges := 1, is_directed := true }
        { host := some [(0, 1)], device := none } 1 true Location.HOST).2 =
      cudaError_t.cudaSuccess := by
  refine ⟨by decide, ?_⟩
  exact insert_delete_idempotent.2.2
    { edgeSet := [(0, 1)], nodes := 2, edges := 1, is_directed := true }
    { host := some [(0, 1)], device := none } 1 true Location.HOST (0, 1)
    (by decide)

/-- The example CSR of the spec in the conversion container format: 3
vertices, row_offsets [0,2,3,5], column_indices [1,2,0,1,3]. -/
def cEx : csr_t :=
  { nodes := 3
    edges := 5
    row_offsets := [0, 2, 3, 5]
    column_indices := [1, 2, 0, 1, 3]
    edge_values := []
    directed := true }

/-- An empty dynamic graph. -/
def dynEmpty : DynGraph :=
  { edgeSet := [], nodes := 0, edges := 0, is_directed := true }

/-- C4: for a CSR graph with no duplicate edges, exporting with ToCsr after
bulk-building with FromCsr yields a CSR whose per-vertex neighbor set equals
the source's for every vertex (membership agrees; order within a vertex may
differ). -/
theorem round_trip_neighbor_sets (g0 : DynGraph) (c : csr_t)
    (target : Location)
    (hnodup : ∀ v, v < c.nodes → (csrNeighborsRange c v).Nodup)
    (v : Nat) (hv : v < c.nodes) (x : Nat) :
    x ∈ csrNeighborsRange (Dyn.ToCsr (Dyn.FromCsr g0 c target).1) v ↔
      x ∈ csrNeighborsRange c v := by
  have hnodes : ((Dyn.FromCsr g0 c target).1).nodes = c.nodes := rfl
  rw [toCsr_neighbors _ v (by rw [hnodes]; exact hv)]
  rw [mem_dynNeighbors]
  have hset : ((Dyn.FromCsr g0 c target).1).edgeSet =
      (csrPairs c).foldl insertPair [] := rfl
  rw [hset, mem_foldl_insertPair, mem_csrPairs]
  constructor
  · rintro (hfalse | ⟨_, hx⟩)
    · simp at hfalse
    · exact hx
  · intro hx
    exact Or.inr ⟨hv, hx⟩

/-- Witness for C4 on the example graph: vertex 0's neighbor set after the
round trip contains 1 exactly as the source does. -/
theorem round_trip_neighbor_sets_witness :
    (∀ v, v < cEx.nodes → (csrNeighborsRange cEx v).Nodup) ∧
    (0 : Nat) < cEx.nodes ∧
    ((1 ∈ csrNeighborsRange (Dyn.ToCsr (Dyn.FromCsr dynEmpty cEx
        Location.HOST).1) 0) ↔ 1 ∈ csrNeighborsRange cEx 0) :=
  ⟨by decide, by decide,
    round_trip_neighbor_sets dynEmpty cEx Location.HOST (by decide) 0
      (by decide) 1⟩

end Gunrock
